import Mathlib

/-!
Verification of the client-folder resolution and stage-history core of the
doc_bot_support repository (`src/main.py`), via a shallow embedding.

Strings are modelled as `List Char`.  Python library primitives are embedded
as follows:
* `re.sub(r"\D", "", s)`      → `stripNonDigits` (ASCII decimal digits);
* `re.sub(r"\s+", " ", s)`    → `subRuns isSpaceChar ' '` (run-collapsing);
* `str.strip()`               → `stripPy`;
* `unicodedata.normalize("NFKC", s)` → `nfkc`, modelled character-wise by a
  finite table of compatibility decompositions (`ŉ` → `ʼn`, fullwidth
  apostrophe → `'`, NBSP → space); identity elsewhere.  Faithful on text free
  of un-normalized combining sequences; `tameChar` below marks the characters
  on which the model provably coincides with the library;
* `str.upper()`/`str.lower()` → the string-valued maps `pyUpper`/`pyLower`:
  a character-to-character table for ASCII and Ukrainian/Cyrillic letters,
  plus the one-to-many special cases (`'ß'.upper() == 'SS'`,
  `'ŉ'.upper() == 'ʼN'`, `'İ'.lower() == 'i̇'`);
* `list.sort(key=k, reverse=True)` → the stable descending insertion sort
  `sortDescPy` (Python's sort is stable, so `sorted[0]` is the first-seen
  element with the maximal key);
* Google-Drive child queries   → filters over an explicit `List Folder` of
  the direct child folders of the searched parent (`name contains` is
  substring containment, `name =` is exact equality, as in the spec).
-/

namespace DocBot

/-- Strings of the embedded program: lists of characters. -/
abbrev Str := List Char

/-- Characters matched by Python's `\s` (the ones relevant to this model:
ASCII whitespace, NEL and NBSP). -/
def isSpaceChar (c : Char) : Bool :=
  c == ' ' || c == '\t' || c == '\n' || c == '\r' || c == '\u000B' ||
  c == '\u000C' || c == '\u0085' || c == '\u00A0'

/-- Characters replaced by `re.sub(r"[,\.;]+", " ", s)` in `normalize_fio_string`. -/
def isPunctChar (c : Char) : Bool :=
  c == ',' || c == '.' || c == ';'

/-- ASCII decimal digits, as matched by `\d` on the inputs this model covers. -/
def isDigitChar (c : Char) : Bool :=
  c.isDigit

/-- `re.sub(r"\D", "", s)`: keep only the digits of `s`. -/
def stripNonDigits (s : Str) : Str :=
  s.filter isDigitChar

/-- The `APOSTROPHES` constant of `main.py`: apostrophe-like code points that
`_unify_apostrophes` rewrites to a plain `'`.  (U+0060 is the backquote.) -/
def apostropheChars : Str :=
  ['’', Char.ofNat 0x60, 'ʼ', 'ʹ', '′', '＇', 'ꞌ']

/-- `_unify_apostrophes`: map every apostrophe-like character to `'`. -/
def unifyApostrophes (s : Str) : Str :=
  s.map (fun c => if apostropheChars.contains c then '\'' else c)

/-- The `s.replace(" ", " ")` step of `normalize_spaces`. -/
def replaceNbsp (s : Str) : Str :=
  s.map (fun c => if c == '\u00A0' then ' ' else c)

/-- The NFKC compatibility decompositions relevant to this model's alphabet:
`ŉ` (U+0149) decomposes to `ʼ` (U+02BC) + `n`, the fullwidth apostrophe
(U+FF07) to `'`, and NBSP to a plain space.  Characters without an entry are
NFKC-stable. -/
def nfkcTable : List (Char × Str) :=
  [('ŉ', ['ʼ', 'n']), ('＇', ['\'']), ('\u00A0', [' '])]

/-- NFKC on one character: its compatibility decomposition, or itself. -/
def nfkcChar (c : Char) : Str :=
  match nfkcTable.find? (fun p => p.1 == c) with
  | some p => p.2
  | none => [c]

/-- `unicodedata.normalize("NFKC", s)`, modelled character-wise through
`nfkcChar` (sufficient for text free of un-normalized combining sequences). -/
def nfkc (s : Str) : Str := (s.map nfkcChar).join

/-- Worker for `subRuns`: the flag records whether the previous character was
part of a run currently being replaced. -/
def subRunsAux (p : Char → Bool) (r : Char) : Bool → Str → Str
  | _, [] => []
  | inRun, c :: cs =>
    if p c then
      if inRun then subRunsAux p r true cs
      else r :: subRunsAux p r true cs
    else c :: subRunsAux p r false cs

/-- `re.sub(pattern+, r, s)` for a character class: replace every maximal run
of characters satisfying `p` by the single character `r`. -/
def subRuns (p : Char → Bool) (r : Char) (s : Str) : Str :=
  subRunsAux p r false s

/-- Drop the trailing characters of `s` satisfying `p`. -/
def dropEndWhile (p : Char → Bool) (s : Str) : Str :=
  (s.reverse.dropWhile p).reverse

/-- Python `str.strip()`: drop leading and trailing whitespace. -/
def stripPy (s : Str) : Str :=
  dropEndWhile isSpaceChar (s.dropWhile isSpaceChar)

/-- `normalize_spaces`: NFKC-normalize, replace NBSP with a plain space,
collapse whitespace runs to single spaces and strip the ends. -/
def normalize_spaces (s : Str) : Str :=
  stripPy (subRuns isSpaceChar ' ' (replaceNbsp (nfkc s)))

/-- Python `s.split(sep)` for a one-character separator: the list of (possibly
empty) segments of `s` between occurrences of `sep`.  Never returns `[]`. -/
def splitOnChar (sep : Char) : Str → List Str
  | [] => [[]]
  | c :: cs =>
    if c == sep then [] :: splitOnChar sep cs
    else
      match splitOnChar sep cs with
      | [] => [[c]]
      | t :: ts => (c :: t) :: ts

/-- Python `sep.join(segments)` for a one-character separator. -/
def joinSep (sep : Char) : List Str → Str
  | [] => []
  | [t] => t
  | t :: ts => t ++ sep :: joinSep sep ts

/-- The lowercase/uppercase pairs of the case map used by `_smart_title`:
ASCII letters plus the Ukrainian/Cyrillic letters of the bot's domain.
Models Python's `str.upper`/`str.lower` character-to-character on this
alphabet (all other characters are left unchanged). -/
def lowerUpperTable : List (Char × Char) :=
  [('a', 'A'), ('b', 'B'), ('c', 'C'), ('d', 'D'), ('e', 'E'), ('f', 'F'),
   ('g', 'G'), ('h', 'H'), ('i', 'I'), ('j', 'J'), ('k', 'K'), ('l', 'L'),
   ('m', 'M'), ('n', 'N'), ('o', 'O'), ('p', 'P'), ('q', 'Q'), ('r', 'R'),
   ('s', 'S'), ('t', 'T'), ('u', 'U'), ('v', 'V'), ('w', 'W'), ('x', 'X'),
   ('y', 'Y'), ('z', 'Z'),
   ('а', 'А'), ('б', 'Б'), ('в', 'В'), ('г', 'Г'), ('д', 'Д'), ('е', 'Е'),
   ('ж', 'Ж'), ('з', 'З'), ('и', 'И'), ('й', 'Й'), ('к', 'К'), ('л', 'Л'),
   ('м', 'М'), ('н', 'Н'), ('о', 'О'), ('п', 'П'), ('р', 'Р'), ('с', 'С'),
   ('т', 'Т'), ('у', 'У'), ('ф', 'Ф'), ('х', 'Х'), ('ц', 'Ц'), ('ч', 'Ч'),
   ('ш', 'Ш'), ('щ', 'Щ'), ('ь', 'Ь'), ('ю', 'Ю'), ('я', 'Я'),
   ('і', 'І'), ('ї', 'Ї'), ('є', 'Є'), ('ґ', 'Ґ')]

/-- The character-to-character part of `str.upper` (identity off the modelled
alphabet). -/
def pyToUpper (c : Char) : Char :=
  match lowerUpperTable.find? (fun p => p.1 == c) with
  | some p => p.2
  | none => c

/-- The character-to-character part of `str.lower` (identity off the modelled
alphabet). -/
def pyToLower (c : Char) : Char :=
  match lowerUpperTable.find? (fun p => p.2 == c) with
  | some p => p.1
  | none => c

/-- The one-to-many uppercase mappings of Python's `str.upper` covered by the
model: `'ß'.upper() == 'SS'` and `'ŉ'.upper() == 'ʼN'`. -/
def upperSpecial : List (Char × Str) :=
  [('ß', ['S', 'S']), ('ŉ', ['ʼ', 'N'])]

/-- The one-to-many lowercase mapping of Python's `str.lower` covered by the
model: `'İ'.lower()` is `i` followed by a combining dot above (U+0307). -/
def lowerSpecial : List (Char × Str) :=
  [('İ', ['i', '\u0307'])]

/-- `str.upper` on one character, as a string: one-to-many on the special
cases, `pyToUpper` elsewhere. -/
def pyUpper (c : Char) : Str :=
  match upperSpecial.find? (fun p => p.1 == c) with
  | some p => p.2
  | none => [pyToUpper c]

/-- `str.lower` on one character, as a string: one-to-many on the special
cases, `pyToLower` elsewhere. -/
def pyLower (c : Char) : Str :=
  match lowerSpecial.find? (fun p => p.1 == c) with
  | some p => p.2
  | none => [pyToLower c]

/-- Python `x[:1].upper() + x[1:].lower()`, used on each sub-token of
`_smart_title`. -/
def capitalizePy : Str → Str
  | [] => []
  | c :: cs => pyUpper c ++ (cs.map pyLower).join

/-- The characters on which the model's Unicode maps provably coincide with
the library's: NFKC-stable, with one-to-one upper- and lowercase mappings.
All ASCII and Ukrainian/Cyrillic text is tame; `'ß'`, `'ŉ'` and `'İ'` are
not. -/
def tameChar (c : Char) : Prop :=
  nfkcChar c = [c] ∧ pyUpper c = [pyToUpper c] ∧ pyLower c = [pyToLower c]

instance : DecidablePred tameChar := fun c =>
  inferInstanceAs (Decidable (nfkcChar c = [c] ∧ pyUpper c = [pyToUpper c] ∧
    pyLower c = [pyToLower c]))

/-- The per-hyphen-part body of `_smart_title`: split the part on `'`,
capitalize each sub-part, and rejoin with `'`. -/
def titlePart (part : Str) : Str :=
  joinSep '\'' ((splitOnChar '\'' part).map capitalizePy)

/-- `_smart_title`: split the stripped token on `-`, process each part with
`titlePart`, and rejoin with `-`. -/
def _smart_title (token : Str) : Str :=
  let token := stripPy token
  if token.isEmpty then []
  else joinSep '-' ((splitOnChar '-' token).map titlePart)

/-- `normalize_fio_string`: unify apostrophes, normalize spaces, replace
punctuation runs by spaces, re-normalize, then smart-title each token and
join with single spaces. -/
def normalize_fio_string (raw : Str) : Str :=
  let s := normalize_spaces (unifyApostrophes raw)
  let s := subRuns isPunctChar ' ' s
  let s := normalize_spaces s
  let tokens := ((splitOnChar ' ' s).filter (fun t => !t.isEmpty)).map _smart_title
  joinSep ' ' tokens

/-- The national prefix `"+380"`. -/
def plus380 : Str := ['+', '3', '8', '0']

/-- Python `s[-n:]` on a list: the last `n` elements (all of them if shorter). -/
def takeLast (n : Nat) (s : Str) : Str :=
  s.drop (s.length - n)

/-- Bool-valued prefix test (Python `str.startswith`). -/
def leadsWith : Str → Str → Bool
  | [], _ => true
  | _ :: _, [] => false
  | a :: as, b :: bs => a == b && leadsWith as bs

/-- Python `digits.lstrip("380")`: drop every leading character that is one of
`'3'`, `'8'`, `'0'` (a character-class strip, not a prefix removal). -/
def lstrip380 (s : Str) : Str :=
  s.dropWhile (fun c => c == '3' || c == '8' || c == '0')

/-- `normalize_phone_e164_ua`: canonicalize a phone string to `+380` plus the
last (up to) nine digits of the prefix-adjusted digit string. -/
def normalize_phone_e164_ua (phone : Str) : Str :=
  let digits := stripNonDigits phone
  if digits.isEmpty then plus380
  else
    let digits := if leadsWith ['0'] digits then '3' :: '8' :: '0' :: digits else digits
    let body := if leadsWith ['3', '8', '0'] digits then digits.drop 3 else lstrip380 digits
    plus380 ++ takeLast 9 body

/-- `normalize_folder_title_for_compare`: split a folder title at the first
comma (the regex `^(.*?),(.*)$`), canonicalize the name part and the phone
part, and reassemble; with no comma, treat the whole title as a name. -/
def normalize_folder_title_for_compare (title : Str) : Str :=
  let title := normalize_spaces (unifyApostrophes title)
  if title.contains ',' then
    let left := stripPy (title.takeWhile (fun c => c != ','))
    let right := stripPy ((title.dropWhile (fun c => c != ',')).tail)
    let left := normalize_fio_string left
    let digits := stripNonDigits right
    let phone :=
      if !digits.isEmpty then normalize_phone_e164_ua digits
      else normalize_phone_e164_ua right
    left ++ ',' :: ' ' :: phone
  else normalize_fio_string title

/-- `re.findall(r"\d{9,12}", digits)` on an all-digit string: the greedy,
non-overlapping left-to-right chunks of 9 to 12 digits.  The fuel argument is
the length of the string, enough for every 12-digit step. -/
def chunksAux : Nat → Str → List Str
  | 0, _ => []
  | fuel + 1, s =>
    if 12 ≤ s.length then s.take 12 :: chunksAux fuel (s.drop 12)
    else if 9 ≤ s.length then [s]
    else []

/-- `_extract_e164_from_title`: strip non-digits; with fewer than nine digits
no phone is extractable; otherwise canonicalize the last digit run of length
9–12. -/
def _extract_e164_from_title (title : Str) : Option Str :=
  let digits := stripNonDigits title
  if digits.length < 9 then none
  else
    match (chunksAux digits.length digits).getLast? with
    | none => none
    | some run => some (normalize_phone_e164_ua run)

/-! ### Folder resolution (exact → fuzzy → phone-pattern cascade) -/

/-- A Google-Drive child folder as the resolver sees it: its file id and its
raw name (`files(id,name)` in the queries). -/
structure Folder where
  fid : Nat
  name : Str
deriving DecidableEq, Repr

/-- Bool-valued substring test (Python's `needle in haystack`). -/
def hasSub (needle : Str) : Str → Bool
  | [] => needle.isEmpty
  | c :: cs => leadsWith needle (c :: cs) || hasSub needle cs

/-- One step of the stable descending insertion sort: `x` (seen earlier than
everything in the already-sorted list) goes before the first element whose key
is not greater than `x`'s. -/
def insDescPy (lt : α → α → Bool) (x : α) : List α → List α
  | [] => [x]
  | y :: ys => if lt x y then y :: insDescPy lt x ys else x :: y :: ys

/-- Python `list.sort(key=…, reverse=True)`: stable descending sort, so the
head of the result is the first-seen element with the maximal key. -/
def sortDescPy (lt : α → α → Bool) : List α → List α
  | [] => []
  | x :: xs => insDescPy lt x (sortDescPy lt xs)

/-- Key comparison for `sort(key=lambda f: len(f["name"]), reverse=True)`. -/
def ltLen (f g : Folder) : Bool :=
  decide (f.name.length < g.name.length)

/-- Lexicographic comparison of the `(token-intersection, name-length)` key
tuples used by Tier 3. -/
def pairLtB (a b : Nat × Nat) : Bool :=
  decide (a.1 < b.1 ∨ (a.1 = b.1 ∧ a.2 < b.2))

/-- `find_folder_by_exact_name_under`: the `name = '…'` query with
`page_size=1` returns the first child whose name is byte-exact equal. -/
def find_folder_by_exact_name_under (folders : List Folder) (exact_name : Str) :
    Option Folder :=
  folders.find? (fun f => f.name == exact_name)

/-- First segment of a Python `split` result (`xs[0]`; `split` never returns
an empty list). -/
def head0 : List Str → Str
  | [] => []
  | t :: _ => t

/-- The candidate list of Tier 2 (`find_folder_by_fuzzy`): children whose name
contains the part of `fio_norm` before the first comma, filtered — when
`phone_last9` is non-empty — to those whose digit-only name content contains
`phone_last9`. -/
def fuzzyCandidates (folders : List Folder) (fio_norm phone_last9 : Str) :
    List Folder :=
  let sub := head0 (splitOnChar ',' fio_norm)
  let items := folders.filter (fun f => hasSub sub f.name)
  if phone_last9.isEmpty then items
  else items.filter (fun f => hasSub phone_last9 (stripNonDigits f.name))

/-- `find_folder_by_fuzzy`: among the candidates, the longest raw name wins,
ties broken by first-seen order (`sort(key=len, reverse=True)` is stable);
`none` when no candidate remains. -/
def find_folder_by_fuzzy (folders : List Folder) (fio_norm phone_last9 : Str) :
    Option Folder :=
  (sortDescPy ltLen (fuzzyCandidates folders fio_norm phone_last9)).head?

/-- Modelled from the spec's words, for comparison with the code (claim C5):
a Tier-2 variant whose query substring is the *surname token* — the first
whitespace-delimited token of the canonicalized name portion — instead of the
whole name portion before the first comma. -/
def find_folder_by_fuzzy_surname_token (folders : List Folder)
    (fio_norm phone_last9 : Str) : Option Folder :=
  let sub := head0 ((splitOnChar ' ' (head0 (splitOnChar ',' fio_norm))).filter
    (fun t => !t.isEmpty))
  let items := folders.filter (fun f => hasSub sub f.name)
  let items :=
    if phone_last9.isEmpty then items
    else items.filter (fun f => hasSub phone_last9 (stripNonDigits f.name))
  (sortDescPy ltLen items).head?

/-- The six human-formatting variants of the canonical nine-digit body used by
`find_folder_by_phone` (`op2`/`mid3`/`last4` are `last9[:2]`, `last9[2:5]`,
`last9[5:9]`). -/
def phonePatterns (last9 : Str) : List Str :=
  let op2 := last9.take 2
  let mid3 := (last9.drop 2).take 3
  let last4 := (last9.drop 5).take 4
  [op2 ++ ' ' :: mid3 ++ ' ' :: last4,
   mid3 ++ ' ' :: last4,
   last4,
   last9,
   '+' :: '3' :: '8' :: '0' :: ' ' :: op2 ++ ' ' :: mid3 ++ ' ' :: last4,
   plus380 ++ op2 ++ mid3 ++ last4]

/-- `seen.setdefault(f["id"], f)` over the result pages: keep the first
occurrence of each folder id, in order of first appearance. -/
def dedupByIdAux : List Nat → List Folder → List Folder
  | _, [] => []
  | seen, f :: fs =>
    if seen.contains f.fid then dedupByIdAux seen fs
    else f :: dedupByIdAux (f.fid :: seen) fs

/-- Deduplicate a folder list by id, keeping first occurrences. -/
def dedupById (fs : List Folder) : List Folder :=
  dedupByIdAux [] fs

/-- Tier 3, query phase: children whose name contains one of the phone
patterns (patterns containing `'` are silently excluded from the OR),
deduplicated by id. -/
def tier3_candidates (folders : List Folder) (phone_e164 : Str) : List Folder :=
  let e164 := normalize_phone_e164_ua phone_e164
  let digits := stripNonDigits e164
  let last9 := takeLast 9 digits
  let pats := (phonePatterns last9).filter (fun p => !p.contains '\'')
  dedupById (folders.filter (fun f => pats.any (fun p => hasSub p f.name)))

/-- Tier 3, confirmation phase: keep only candidates whose name yields an
extractable phone whose canonical form equals the expected canonical phone. -/
def tier3_matched (folders : List Folder) (phone_e164 : Str) : List Folder :=
  let e164 := normalize_phone_e164_ua phone_e164
  (tier3_candidates folders phone_e164).filter (fun f =>
    match _extract_e164_from_title f.name with
    | some cand => normalize_phone_e164_ua cand == e164
    | none => false)

/-- The token set of the name part of a title, as the local `tokens` helper of
`find_folder_by_phone` computes it: normalize the part before the first comma
and split on whitespace; `List.dedup` models the `set(…)` constructor. -/
def fioTokens (s : Str) : List Str :=
  let s := normalize_spaces (head0 (splitOnChar ',' s))
  ((splitOnChar ' ' s).filter (fun t => !t.isEmpty)).dedup

/-- Size of the intersection of two token sets (`len(a & b)` on Python sets,
with `a`/`b` already duplicate-free). -/
def interCount (a b : List Str) : Nat :=
  (a.filter (fun t => b.contains t)).length

/-- The Tier-3 ranking key of a folder against the expected name:
`(len(tokens(name) & tokens(expected)), len(name))`. -/
def tier3_key (exp : Str) (f : Folder) : Nat × Nat :=
  (interCount (fioTokens f.name) (fioTokens exp), f.name.length)

/-- Key comparison for the Tier-3 `sort(key=lambda x: (inter, len), reverse=True)`. -/
def ltKey (exp : Str) (f g : Folder) : Bool :=
  pairLtB (tier3_key exp f) (tier3_key exp g)

/-- Python truthiness of the optional expected name (`not expected_fio`):
`None` and the empty string are falsy. -/
def falsyOpt : Option Str → Bool
  | none => true
  | some s => s.isEmpty

/-- `find_folder_by_phone` (Tier 3): pattern query, id-dedup, exact phone
confirmation, then selection — longest name when a single candidate remains or
no expected name was supplied, otherwise the `(token-intersection, length)`
lexicographic maximum, first-seen on full ties. -/
def find_folder_by_phone (folders : List Folder) (phone_e164 : Str)
    (expected_fio : Option Str) : Option Folder :=
  let matched := tier3_matched folders phone_e164
  if matched.isEmpty then none
  else if matched.length == 1 || falsyOpt expected_fio then
    (sortDescPy ltLen matched).head?
  else
    let exp := match expected_fio with | some s => s | none => []
    (sortDescPy (ltKey exp) matched).head?

/-- Modelled from the spec's words, for comparison with the code (claim C10):
the candidate token set lowercased before intersecting, as the claim's
"lowercase name tokens" prescribes. -/
def lowerTokens (s : Str) : List Str :=
  ((fioTokens s).map (fun t => (t.map pyLower).join)).dedup

/-- Modelled from the spec's words (claim C10): the size of the lowercase
token intersection between a folder name and the expected name. -/
def lowercaseTokenInter (name exp : Str) : Nat :=
  interCount (lowerTokens name) (lowerTokens exp)

/-- `find_client_folder_strict`: Tier 1 exact title match, then Tier 2 fuzzy
by canonicalized title plus last nine digits, then Tier 3 by phone patterns
with the expected title as expected name. -/
def find_client_folder_strict (folders : List Folder)
    (expected_title phone_e164 : Str) : Option Folder :=
  match find_folder_by_exact_name_under folders expected_title with
  | some f => some f
  | none =>
    let fio_only := normalize_folder_title_for_compare expected_title
    let last9 := takeLast 9 (stripNonDigits phone_e164)
    match find_folder_by_fuzzy folders fio_only last9 with
    | some f => some f
    | none => find_folder_by_phone folders phone_e164 (some expected_title)

/-! ### Stage history reduction -/

/-- One `crm.stagehistory.list` row: stage id and creation time.  Timestamps
are modelled as integers (seconds); `_parse_iso` becomes the identity and the
string sort key `CREATED_TIME` becomes the numeric sort key `time`. -/
structure StageRow where
  sid : Str
  time : Int
deriving DecidableEq, Repr

/-- One computed stage segment.  The dict key `"end"` is modelled by the field
`stop` (`end` is reserved in Lean). -/
structure StageSegment where
  sid : Str
  start : Int
  stop : Int
  duration : Int
deriving DecidableEq, Repr

/-- One step of the stable ascending insertion sort (Python `list.sort(key=…)`). -/
def insAscPy (lt : α → α → Bool) (x : α) : List α → List α
  | [] => [x]
  | y :: ys => if lt y x then y :: insAscPy lt x ys else x :: y :: ys

/-- Python `list.sort(key=…)`: stable ascending sort. -/
def sortAscPy (lt : α → α → Bool) : List α → List α
  | [] => []
  | x :: xs => insAscPy lt x (sortAscPy lt xs)

/-- Sort key of `items.sort(key=lambda r: r.get("CREATED_TIME", ""))`. -/
def ltTime (a b : StageRow) : Bool :=
  decide (a.time < b.time)

/-- The dedup scan of `get_deal_stage_history`: drop a row whose stage id
equals the immediately preceding retained row's stage id. -/
def dedupLoop : Option Str → List StageRow → List StageRow
  | _, [] => []
  | prev, r :: rs =>
    if some r.sid = prev then dedupLoop prev rs
    else r :: dedupLoop (some r.sid) rs

/-- `get_deal_stage_history`: truncate to `limit`, sort ascending by creation
time (stable), then collapse consecutive duplicate stage ids. -/
def get_deal_stage_history (items : List StageRow) (limit : Nat) : List StageRow :=
  dedupLoop none (sortAscPy ltTime (items.take limit))

/-- `compute_stage_segments`: each retained row opens a segment at its time;
the segment closes at the next row's time, or at the evaluation time `now` for
the last row.  The stored duration is `end - start`, with no clamping. -/
def compute_stage_segments (rows : List StageRow) (now : Int) : List StageSegment :=
  match rows with
  | [] => []
  | [r] => [⟨r.sid, r.time, now, now - r.time⟩]
  | r :: r₂ :: rest =>
    ⟨r.sid, r.time, r₂.time, r₂.time - r.time⟩ :: compute_stage_segments (r₂ :: rest) now

/-- The clamped second count on which `_fmt_tdelta` bases its rendering:
`int(max(td.total_seconds(), 0))`. -/
def fmtTotalSeconds (td : Int) : Nat :=
  (max td 0).toNat

/-- `_fmt_tdelta`: render a duration as days/hours/minutes, omitting zero
leading units but always emitting minutes when nothing else was emitted. -/
def _fmt_tdelta (td : Int) : Str :=
  let total := fmtTotalSeconds td
  let d := total / 86400
  let remh := total % 86400
  let h := remh / 3600
  let remm := remh % 3600
  let m := remm / 60
  let parts := (if d ≠ 0 then [(toString d).toList ++ ' ' :: "д".toList] else []) ++
    (if h ≠ 0 then [(toString h).toList ++ ' ' :: "год".toList] else [])
  let parts :=
    if m ≠ 0 ∨ parts.isEmpty then parts ++ [(toString m).toList ++ ' ' :: "хв".toList]
    else parts
  joinSep ' ' parts

/-! ### Basic lemmas about the string primitives -/

theorem takeLast_length_le (n : Nat) (s : Str) : (takeLast n s).length ≤ n := by
  simp only [takeLast, List.length_drop]
  omega

theorem takeLast_of_length_le {n : Nat} {s : Str} (h : s.length ≤ n) :
    takeLast n s = s := by
  have : s.length - n = 0 := by omega
  simp [takeLast, this]

theorem leadsWith_append (xs r : Str) : leadsWith xs (xs ++ r) = true := by
  induction xs with
  | nil => rfl
  | cons c cs ih => simp [leadsWith, ih]

theorem mem_takeLast {n : Nat} {s : Str} {c : Char} (h : c ∈ takeLast n s) :
    c ∈ s :=
  (List.drop_sublist _ _).subset h

theorem stripNonDigits_digits {s : Str} {c : Char} (h : c ∈ stripNonDigits s) :
    isDigitChar c = true :=
  (List.mem_filter.mp h).2

/-- The body that `normalize_phone_e164_ua` appends to the prefix, before the
final `[-9:]` truncation. -/
theorem normalize_phone_shape (s : Str) :
    ∃ body, normalize_phone_e164_ua s = plus380 ++ body ∧
      (∀ c ∈ body, isDigitChar c = true) ∧ body.length ≤ 9 := by
  unfold normalize_phone_e164_ua
  by_cases h : (stripNonDigits s).isEmpty
  · exact ⟨[], by simp [h], by simp, by simp⟩
  · simp only [h, if_false, Bool.false_eq_true]
    set digits0 := stripNonDigits s with hd0
    have hdig0 : ∀ c ∈ digits0, isDigitChar c = true := fun c hc =>
      stripNonDigits_digits hc
    set digits1 := if leadsWith ['0'] digits0 then '3' :: '8' :: '0' :: digits0
      else digits0 with hd1
    have hdig1 : ∀ c ∈ digits1, isDigitChar c = true := by
      rw [hd1]
      split
      · intro c hc
        simp only [List.mem_cons] at hc
        rcases hc with rfl | rfl | rfl | hc
        · rfl
        · rfl
        · rfl
        · exact hdig0 _ hc
      · exact hdig0
    set body := if leadsWith ['3', '8', '0'] digits1 then digits1.drop 3
      else lstrip380 digits1 with hb
    have hdigb : ∀ c ∈ body, isDigitChar c = true := by
      rw [hb]
      split
      · exact fun c hc => hdig1 _ ((List.drop_sublist _ _).subset hc)
      · exact fun c hc => hdig1 _ ((List.dropWhile_sublist _).subset hc)
    exact ⟨takeLast 9 body, rfl, fun c hc => hdigb _ (mem_takeLast hc),
      takeLast_length_le 9 body⟩

theorem normalize_phone_fixed {body : Str}
    (hdig : ∀ c ∈ body, isDigitChar c = true) (hlen : body.length ≤ 9) :
    normalize_phone_e164_ua (plus380 ++ body) = plus380 ++ body := by
  have hstrip : stripNonDigits (plus380 ++ body) = '3' :: '8' :: '0' :: body := by
    have h380 : stripNonDigits plus380 = ['3', '8', '0'] := by decide
    simp only [stripNonDigits] at h380 ⊢
    rw [List.filter_append, h380, List.filter_eq_self.mpr hdig]
    rfl
  unfold normalize_phone_e164_ua
  rw [hstrip]
  have h0 : leadsWith ['0'] ('3' :: '8' :: '0' :: body) = false := by
    simp [leadsWith]
  have h380' : leadsWith ['3', '8', '0'] ('3' :: '8' :: '0' :: body) = true := by
    simpa using leadsWith_append ['3', '8', '0'] body
  simp [h0, h380', takeLast_of_length_le hlen]

/-- `normalize_phone_e164_ua` is idempotent. -/
theorem normalize_phone_idem (s : Str) :
    normalize_phone_e164_ua (normalize_phone_e164_ua s) =
      normalize_phone_e164_ua s := by
  obtain ⟨body, hEq, hdig, hlen⟩ := normalize_phone_shape s
  rw [hEq, normalize_phone_fixed hdig hlen]

/-! ### Lemmas about `splitOnChar` and `joinSep` -/

theorem splitOnChar_ne_nil (sep : Char) : ∀ l : Str, splitOnChar sep l ≠ []
  | [] => by simp [splitOnChar]
  | c :: cs => by
    simp only [splitOnChar]
    split
    · simp
    · cases h : splitOnChar sep cs <;> simp

theorem joinSep_cons (sep : Char) (t : Str) {ts : List Str} (h : ts ≠ []) :
    joinSep sep (t :: ts) = t ++ sep :: joinSep sep ts := by
  cases ts with
  | nil => exact absurd rfl h
  | cons t₂ ts₂ => rfl

theorem mem_of_mem_splitOnChar {sep : Char} {c : Char} :
    ∀ {l : Str} {t : Str}, t ∈ splitOnChar sep l → c ∈ t → c ∈ l
  | [], t, ht, hc => by
    simp only [splitOnChar, List.mem_singleton] at ht
    subst ht
    simp at hc
  | a :: as, t, ht, hc => by
    simp only [splitOnChar] at ht
    by_cases ha : a == sep
    · rw [if_pos ha] at ht
      rcases List.mem_cons.mp ht with rfl | ht
      · simp at hc
      · exact List.mem_cons_of_mem _ (mem_of_mem_splitOnChar ht hc)
    · rw [if_neg ha] at ht
      cases h : splitOnChar sep as with
      | nil => exact absurd h (splitOnChar_ne_nil sep as)
      | cons t' ts =>
        rw [h] at ht
        rcases List.mem_cons.mp ht with rfl | ht
        · rcases List.mem_cons.mp hc with rfl | hc
          · exact List.mem_cons_self _ _
          · exact List.mem_cons_of_mem _
              (mem_of_mem_splitOnChar (h ▸ List.mem_cons_self _ _) hc)
        · exact List.mem_cons_of_mem _
            (mem_of_mem_splitOnChar (h ▸ List.mem_cons_of_mem _ ht) hc)

theorem mem_joinSep {sep : Char} {c : Char} :
    ∀ {L : List Str}, c ∈ joinSep sep L → c = sep ∨ ∃ t ∈ L, c ∈ t
  | [], h => by simp [joinSep] at h
  | [t], h => Or.inr ⟨t, List.mem_singleton_self t, h⟩
  | t :: t₂ :: ts, h => by
    rw [joinSep_cons sep t (by simp)] at h
    rcases List.mem_append.mp h with h | h
    · exact Or.inr ⟨t, List.mem_cons_self _ _, h⟩
    · rcases List.mem_cons.mp h with rfl | h
      · exact Or.inl rfl
      · rcases mem_joinSep h with h | ⟨u, hu, hcu⟩
        · exact Or.inl h
        · exact Or.inr ⟨u, List.mem_cons_of_mem _ hu, hcu⟩

theorem join_map_singleton (f : Char → Char) : ∀ l : Str,
    ((l.map (fun c => [f c])).join) = l.map f
  | [] => rfl
  | c :: cs => by
    show f c :: ((cs.map (fun c => [f c])).join) = f c :: cs.map f
    rw [join_map_singleton f cs]

theorem pyToUpper_cases (c : Char) :
    pyToUpper c = c ∨ ∃ p ∈ lowerUpperTable, pyToUpper c = p.2 := by
  unfold pyToUpper
  cases h : lowerUpperTable.find? (fun p => p.1 == c) with
  | none => exact Or.inl rfl
  | some p => exact Or.inr ⟨p, List.mem_of_find?_eq_some h, rfl⟩

theorem pyToLower_cases (c : Char) :
    pyToLower c = c ∨ ∃ p ∈ lowerUpperTable, pyToLower c = p.1 := by
  unfold pyToLower
  cases h : lowerUpperTable.find? (fun p => p.2 == c) with
  | none => exact Or.inl rfl
  | some p => exact Or.inr ⟨p, List.mem_of_find?_eq_some h, rfl⟩

/-- The character classes that the case maps respect: not whitespace, not one
of the punctuation characters, not an apostrophe-like character. -/
def cleanChar (c : Char) : Prop :=
  isSpaceChar c = false ∧ isPunctChar c = false ∧
  apostropheChars.contains c = false

/-- On a tame head and tail, `capitalizePy` reduces to the character-wise
form. -/
theorem capitalizePy_cons_tame {c : Char} {cs : Str} (hc : tameChar c)
    (hcs : ∀ d ∈ cs, tameChar d) :
    capitalizePy (c :: cs) = pyToUpper c :: cs.map pyToLower := by
  show pyUpper c ++ (cs.map pyLower).join = pyToUpper c :: cs.map pyToLower
  rw [hc.2.1]
  have hmap : cs.map pyLower = cs.map (fun d => [pyToLower d]) :=
    List.map_congr_left (fun d hd => (hcs d hd).2.2)
  rw [hmap, join_map_singleton, List.singleton_append]

theorem tableCharsTame : lowerUpperTable.all (fun p =>
    decide (tameChar p.1) && decide (tameChar p.2)) = true := by decide

theorem pyToUpper_tame {c : Char} (h : tameChar c) : tameChar (pyToUpper c) := by
  rcases pyToUpper_cases c with heq | ⟨p, hp, heq⟩
  · rw [heq]
    exact h
  · rw [heq]
    have := List.all_eq_true.mp tableCharsTame p hp
    simp only [Bool.and_eq_true, decide_eq_true_eq] at this
    exact this.2

theorem pyToLower_tame {c : Char} (h : tameChar c) : tameChar (pyToLower c) := by
  rcases pyToLower_cases c with heq | ⟨p, hp, heq⟩
  · rw [heq]
    exact h
  · rw [heq]
    have := List.all_eq_true.mp tableCharsTame p hp
    simp only [Bool.and_eq_true, decide_eq_true_eq] at this
    exact this.1

theorem mem_capitalizePy {c : Char} {s : Str} (hs : ∀ d ∈ s, tameChar d)
    (h : c ∈ capitalizePy s) :
    ∃ d ∈ s, c = pyToUpper d ∨ c = pyToLower d := by
  cases s with
  | nil => simp [capitalizePy] at h
  | cons a as =>
    rw [capitalizePy_cons_tame (hs a (List.mem_cons_self _ _))
      (fun d hd => hs d (List.mem_cons_of_mem _ hd))] at h
    rcases List.mem_cons.mp h with rfl | h
    · exact ⟨a, List.mem_cons_self _ _, Or.inl rfl⟩
    · obtain ⟨d, hd, hc⟩ := List.mem_map.mp h
      exact ⟨d, List.mem_cons_of_mem _ hd, Or.inr hc.symm⟩

theorem mem_titlePart {c : Char} {p : Str} (hp : ∀ d ∈ p, tameChar d)
    (h : c ∈ titlePart p) :
    c = '\'' ∨ ∃ d ∈ p, c = pyToUpper d ∨ c = pyToLower d := by
  unfold titlePart at h
  rcases mem_joinSep h with rfl | ⟨s', hs', hcs⟩
  · exact Or.inl rfl
  · obtain ⟨s, hsmem, rfl⟩ := List.mem_map.mp hs'
    obtain ⟨d, hd, hor⟩ := mem_capitalizePy
      (fun d hd => hp d (mem_of_mem_splitOnChar hsmem hd)) hcs
    exact Or.inr ⟨d, mem_of_mem_splitOnChar hsmem hd, hor⟩

theorem titlePart_tame {p : Str} (hp : ∀ d ∈ p, tameChar d) :
    ∀ c ∈ titlePart p, tameChar c := by
  intro c hc
  rcases mem_titlePart hp hc with rfl | ⟨d, hd, hor⟩
  · decide
  · rcases hor with rfl | rfl
    · exact pyToUpper_tame (hp d hd)
    · exact pyToLower_tame (hp d hd)

/-- No whitespace character occurs in the token. -/
def spaceFree (t : Str) : Prop := ∀ c ∈ t, isSpaceChar c = false

/-- All characters of the token are `cleanChar`. -/
def cleanTok (t : Str) : Prop := ∀ c ∈ t, cleanChar c

/-- All characters of the token are clean and tame: the invariant of the
tokens that `normalize_fio_string` produces from tame input. -/
def goodTok (t : Str) : Prop := ∀ c ∈ t, cleanChar c ∧ tameChar c

theorem cleanTok_of_goodTok {t : Str} (h : goodTok t) : cleanTok t :=
  fun c hc => (h c hc).1

theorem spaceFree_of_cleanTok {t : Str} (h : cleanTok t) : spaceFree t :=
  fun c hc => (h c hc).1

/-- C1 (counterexample): the input `"5"` contains a digit, yet the canonical
output `"+3805"` carries one body digit, not nine — the claimed "exactly 9
digits regardless of how many digits the input contained" fails. -/
theorem C1_counterexample :
    stripNonDigits "5".toList ≠ [] ∧
    normalize_phone_e164_ua "5".toList = "+3805".toList ∧
    (normalize_phone_e164_ua "5".toList).length ≠ plus380.length + 9 := by
  refine ⟨by decide, by decide, by decide⟩

/-- C1 (amended): for every input the phone normalizer returns the national
prefix `+380` followed by a digit-only body of at most nine digits (exactly
nine only when enough digits survive the prefix-handling step); an input with
no digits yields the bare prefix. -/
theorem C1_phone_shape_amended (s : Str) :
    (∃ body, normalize_phone_e164_ua s = plus380 ++ body ∧
      (∀ c ∈ body, isDigitChar c = true) ∧ body.length ≤ 9) ∧
    (stripNonDigits s = [] → normalize_phone_e164_ua s = plus380) := by
  refine ⟨normalize_phone_shape s, fun h => ?_⟩
  unfold normalize_phone_e164_ua
  rw [h]
  rfl

/-! ### Claim C4 — idempotence and totality of the normalizers (corrected) -/

theorem insDescPy_ne_nil (lt : α → α → Bool) (x : α) :
    ∀ l : List α, insDescPy lt x l ≠ []
  | [] => by simp [insDescPy]
  | y :: ys => by
    simp only [insDescPy]
    split <;> simp

theorem sortDescPy_nil_of (lt : α → α → Bool) {l : List α}
    (h : sortDescPy lt l = []) : l = [] := by
  cases l with
  | nil => rfl
  | cons x xs => exact absurd h (insDescPy_ne_nil lt x (sortDescPy lt xs))

/-- Head of the stable descending sort: the list decomposes around the
returned element; everything before it is strictly smaller, everything after
it is not larger.  (This is exactly "first-seen element with the maximal
key".) -/
theorem sortDescPy_head_decomp (lt : α → α → Bool)
    (htrans : ∀ a b c, lt a b = true → lt b c = true → lt a c = true)
    (hco : ∀ a b c, lt a c = true → lt a b = true ∨ lt b c = true) :
    ∀ (l : List α) (f : α), (sortDescPy lt l).head? = some f →
      ∃ l₁ l₂, l = l₁ ++ f :: l₂ ∧ (∀ g ∈ l₁, lt g f = true) ∧
        (∀ g ∈ l₂, lt f g = false)
  | [], f, h => by simp [sortDescPy] at h
  | x :: xs, f, h => by
    rw [show sortDescPy lt (x :: xs) = insDescPy lt x (sortDescPy lt xs)
      from rfl] at h
    cases hs : sortDescPy lt xs with
    | nil =>
      rw [hs] at h
      simp only [insDescPy, List.head?_cons, Option.some.injEq] at h
      have hfx : f = x := h.symm
      subst hfx
      rw [sortDescPy_nil_of lt hs]
      exact ⟨[], [], rfl, by simp, by simp⟩
    | cons y ys =>
      rw [hs] at h
      simp only [insDescPy] at h
      by_cases hxy : lt x y = true
      · rw [if_pos hxy] at h
        simp only [List.head?_cons, Option.some.injEq] at h
        have hfy : f = y := h.symm
        subst hfy
        obtain ⟨l₁, l₂, hxseq, hlt1, hlt2⟩ :=
          sortDescPy_head_decomp lt htrans hco xs f (by rw [hs]; rfl)
        refine ⟨x :: l₁, l₂, by rw [hxseq]; rfl, ?_, hlt2⟩
        intro g hg
        rcases List.mem_cons.mp hg with rfl | hg
        · exact hxy
        · exact hlt1 g hg
      · rw [if_neg hxy] at h
        simp only [List.head?_cons, Option.some.injEq] at h
        have hfx : f = x := h.symm
        subst hfx
        refine ⟨[], xs, rfl, by simp, fun g hg => ?_⟩
        obtain ⟨l₁, l₂, hxseq, hlt1, hlt2⟩ :=
          sortDescPy_head_decomp lt htrans hco xs y (by rw [hs]; rfl)
        by_contra hcon
        have hxg : lt f g = true := by simpa using hcon
        rw [hxseq] at hg
        rcases List.mem_append.mp hg with hg | hg
        · exact hxy (htrans f g y hxg (hlt1 g hg))
        · rcases List.mem_cons.mp hg with rfl | hg
          · exact hxy hxg
          · rcases hco f y g hxg with h' | h'
            · exact hxy h'
            · rw [hlt2 g hg] at h'
              exact absurd h' (by simp)

theorem sortDescPy_head_spec (lt : α → α → Bool)
    (htrans : ∀ a b c, lt a b = true → lt b c = true → lt a c = true)
    (hco : ∀ a b c, lt a c = true → lt a b = true ∨ lt b c = true)
    (hirr : ∀ a, lt a a = false) {l : List α} {f : α}
    (h : (sortDescPy lt l).head? = some f) :
    f ∈ l ∧ ∀ g ∈ l, lt f g = false := by
  obtain ⟨l₁, l₂, heq, hlt1, hlt2⟩ := sortDescPy_head_decomp lt htrans hco l f h
  subst heq
  refine ⟨List.mem_append.mpr (Or.inr (List.mem_cons_self _ _)), ?_⟩
  intro g hg
  rcases List.mem_append.mp hg with hg | hg
  · by_contra hcon
    have hfg : lt f g = true := by simpa using hcon
    have := htrans f g f hfg (hlt1 g hg)
    rw [hirr f] at this
    exact absurd this (by simp)
  · rcases List.mem_cons.mp hg with rfl | hg
    · exact hirr _
    · exact hlt2 g hg

theorem ltLen_trans (a b c : Folder) (h1 : ltLen a b = true)
    (h2 : ltLen b c = true) : ltLen a c = true := by
  simp only [ltLen, decide_eq_true_eq] at *
  omega

theorem ltLen_co (a b c : Folder) (h : ltLen a c = true) :
    ltLen a b = true ∨ ltLen b c = true := by
  simp only [ltLen, decide_eq_true_eq] at *
  omega

theorem ltLen_irr (a : Folder) : ltLen a a = false := by
  simp [ltLen]

theorem ltKey_trans (exp : Str) (a b c : Folder) (h1 : ltKey exp a b = true)
    (h2 : ltKey exp b c = true) : ltKey exp a c = true := by
  simp only [ltKey, pairLtB, decide_eq_true_eq] at *
  omega

theorem ltKey_co (exp : Str) (a b c : Folder) (h : ltKey exp a c = true) :
    ltKey exp a b = true ∨ ltKey exp b c = true := by
  simp only [ltKey, pairLtB, decide_eq_true_eq] at *
  omega

theorem ltKey_irr (exp : Str) (a : Folder) : ltKey exp a a = false := by
  simp [ltKey, pairLtB]

/-! ### Claim C3 — Tier-3 phone confirmation -/

/-- Zeta-expanded unfolding of `find_folder_by_phone`. -/
theorem find_phone_unfold (folders : List Folder) (phone : Str)
    (exp : Option Str) :
    find_folder_by_phone folders phone exp =
      (if (tier3_matched folders phone).isEmpty then none
       else if (tier3_matched folders phone).length == 1 || falsyOpt exp then
         (sortDescPy ltLen (tier3_matched folders phone)).head?
       else
         (sortDescPy (ltKey (match exp with | some s => s | none => []))
           (tier3_matched folders phone)).head?) := rfl

theorem find_phone_mem_matched {folders : List Folder} {phone : Str}
    {exp : Option Str} {f : Folder}
    (h : find_folder_by_phone folders phone exp = some f) :
    f ∈ tier3_matched folders phone := by
  rw [find_phone_unfold] at h
  split at h
  · exact absurd h (by simp)
  · split at h
    · exact (sortDescPy_head_spec ltLen ltLen_trans ltLen_co ltLen_irr h).1
    · exact (sortDescPy_head_spec (ltKey _) (ltKey_trans _) (ltKey_co _)
        (ltKey_irr _) h).1

/-- Zeta-expanded unfolding of `_extract_e164_from_title`. -/
theorem extract_unfold (title : Str) :
    _extract_e164_from_title title =
      (if (stripNonDigits title).length < 9 then none
       else
         match (chunksAux (stripNonDigits title).length
             (stripNonDigits title)).getLast? with
         | none => none
         | some run => some (normalize_phone_e164_ua run)) := rfl

/-- Every phone that `_extract_e164_from_title` returns is already in
canonical form (it is the image of `normalize_phone_e164_ua`). -/
theorem extract_is_canonical {title c : Str}
    (h : _extract_e164_from_title title = some c) :
    ∃ run, c = normalize_phone_e164_ua run := by
  rw [extract_unfold] at h
  split at h
  · exact absurd h (by simp)
  · split at h
    · exact absurd h (by simp)
    · exact ⟨_, (Option.some.inj h).symm⟩

/-- C3: every folder returned by the Tier-3 phone-pattern fallback has a name
from which the extractor yields a phone, and that extracted canonical phone is
exactly the expected canonical phone. -/
theorem C3_phone_confirmation (folders : List Folder) (phone : Str)
    (exp : Option Str) (f : Folder)
    (h : find_folder_by_phone folders phone exp = some f) :
    _extract_e164_from_title f.name = some (normalize_phone_e164_ua phone) := by
  have hmem := find_phone_mem_matched h
  have hfil := (List.mem_filter.mp hmem).2
  cases hex : _extract_e164_from_title f.name with
  | none =>
    rw [hex] at hfil
    exact absurd hfil (by simp)
  | some cand =>
    rw [hex] at hfil
    simp only [beq_iff_eq] at hfil
    obtain ⟨run, rfl⟩ := extract_is_canonical hex
    rw [normalize_phone_idem run] at hfil
    exact congrArg some hfil

/-- C3 witness: a concrete store in which Tier 3 returns a folder, whose name
indeed extracts to the expected canonical phone. -/
theorem C3_phone_confirmation_witness :
    find_folder_by_phone [⟨1, "Abc, +380671234567".toList⟩]
      "0671234567".toList none = some ⟨1, "Abc, +380671234567".toList⟩ ∧
    _extract_e164_from_title ("Abc, +380671234567".toList) =
      some (normalize_phone_e164_ua "0671234567".toList) :=
  ⟨by decide,
   C3_phone_confirmation [⟨1, "Abc, +380671234567".toList⟩] "0671234567".toList
     none ⟨1, "Abc, +380671234567".toList⟩ (by decide)⟩

/-! ### Claim C7 — Tier-1 exact match short-circuits the cascade -/

/-- C7: when some direct child's name is byte-exact equal to the expected
title, the strict resolver returns a folder with exactly that name (the first
such child), never one that would only match by the fuzzy or phone tiers. -/
theorem C7_exact_short_circuit (folders : List Folder) (expected phone : Str)
    (h : ∃ f ∈ folders, f.name = expected) :
    ∃ g, find_client_folder_strict folders expected phone = some g ∧
      g.name = expected := by
  obtain ⟨f, hf, hname⟩ := h
  have hsome : (folders.find? (fun f => f.name == expected)).isSome :=
    List.find?_isSome.mpr ⟨f, hf, by simp [hname]⟩
  obtain ⟨g, hg⟩ := Option.isSome_iff_exists.mp hsome
  have hgname : g.name = expected := by
    have := List.find?_some hg
    simpa using this
  refine ⟨g, ?_, hgname⟩
  unfold find_client_folder_strict find_folder_by_exact_name_under
  rw [hg]

/-- C7 witness: a store holding both an exact-title match and a folder that
would match by phone; the resolver picks the exact one. -/
theorem C7_exact_short_circuit_witness :
    (∃ f ∈ [(⟨5, "Melnyk Petro, +380671234567".toList⟩ : Folder),
            ⟨6, "Dodatkova Papka, +380671234567".toList⟩],
       f.name = "Melnyk Petro, +380671234567".toList) ∧
    ∃ g, find_client_folder_strict
        [(⟨5, "Melnyk Petro, +380671234567".toList⟩ : Folder),
         ⟨6, "Dodatkova Papka, +380671234567".toList⟩]
        "Melnyk Petro, +380671234567".toList "+380671234567".toList = some g ∧
      g.name = "Melnyk Petro, +380671234567".toList :=
  ⟨⟨⟨5, "Melnyk Petro, +380671234567".toList⟩, by decide, rfl⟩,
   C7_exact_short_circuit _ _ "+380671234567".toList
     ⟨⟨5, "Melnyk Petro, +380671234567".toList⟩, by decide, rfl⟩⟩

/-! ### Claim C5 — the Tier-2 fuzzy query (corrected) -/

/-- Zeta-expanded unfolding of `fuzzyCandidates`. -/
theorem fuzzyCandidates_unfold (folders : List Folder)
    (fio_norm phone_last9 : Str) :
    fuzzyCandidates folders fio_norm phone_last9 =
      (if phone_last9.isEmpty then
        folders.filter (fun f => hasSub (head0 (splitOnChar ',' fio_norm)) f.name)
      else (folders.filter (fun f =>
          hasSub (head0 (splitOnChar ',' fio_norm)) f.name)).filter
        (fun f => hasSub phone_last9 (stripNonDigits f.name))) := rfl

/-- C5 (counterexample): with the canonicalized expected title
`"Melnyk Petro, +380671234567"`, the code's query substring is the whole name
portion `"Melnyk Petro"`, not the surname token `"Melnyk"`: a folder named
`"Melnyk, 380671234567"` (which carries the surname and the full phone) is
missed by the code, while the spec-modelled surname-token variant finds it. -/
theorem C5_counterexample :
    find_folder_by_fuzzy [⟨1, "Melnyk, 380671234567".toList⟩]
      "Melnyk Petro, +380671234567".toList "671234567".toList = none ∧
    find_folder_by_fuzzy_surname_token [⟨1, "Melnyk, 380671234567".toList⟩]
      "Melnyk Petro, +380671234567".toList "671234567".toList =
      some ⟨1, "Melnyk, 380671234567".toList⟩ :=
  ⟨by decide, by decide⟩

/-- C5 (amended): the Tier-2 query substring is the *entire* canonicalized
name portion before the first comma; from the query results only candidates
whose digit-only name content contains the given nine-digit suffix are kept
(when the suffix is non-empty), and the returned folder is the first-seen
candidate of maximal raw-name length. -/
theorem C5_fuzzy_amended (folders : List Folder) (fio_norm phone_last9 : Str)
    (f : Folder) (h : find_folder_by_fuzzy folders fio_norm phone_last9 = some f) :
    hasSub (head0 (splitOnChar ',' fio_norm)) f.name = true ∧
    (phone_last9 ≠ [] → hasSub phone_last9 (stripNonDigits f.name) = true) ∧
    ∃ l₁ l₂, fuzzyCandidates folders fio_norm phone_last9 = l₁ ++ f :: l₂ ∧
      (∀ g ∈ l₁, g.name.length < f.name.length) ∧
      (∀ g ∈ l₂, g.name.length ≤ f.name.length) := by
  have h' : (sortDescPy ltLen (fuzzyCandidates folders fio_norm
      phone_last9)).head? = some f := h
  obtain ⟨l₁, l₂, heq, hlt1, hlt2⟩ :=
    sortDescPy_head_decomp ltLen ltLen_trans ltLen_co _ f h'
  have hfmem : f ∈ fuzzyCandidates folders fio_norm phone_last9 := by
    rw [heq]
    exact List.mem_append.mpr (Or.inr (List.mem_cons_self _ _))
  rw [fuzzyCandidates_unfold] at hfmem
  refine ⟨?_, ?_, l₁, l₂, heq, ?_, ?_⟩
  · by_cases hempty : phone_last9.isEmpty
    · rw [if_pos hempty] at hfmem
      exact (List.mem_filter.mp hfmem).2
    · rw [if_neg hempty] at hfmem
      exact (List.mem_filter.mp (List.mem_filter.mp hfmem).1).2
  · intro hne
    have hempty : phone_last9.isEmpty = false := by
      cases phone_last9 with
      | nil => exact absurd rfl hne
      | cons a as => rfl
    rw [hempty] at hfmem
    simp only [Bool.false_eq_true, if_false] at hfmem
    exact (List.mem_filter.mp hfmem).2
  · intro g hg
    have := hlt1 g hg
    simp only [ltLen, decide_eq_true_eq] at this
    exact this
  · intro g hg
    have := hlt2 g hg
    simp only [ltLen, decide_eq_false_iff_not] at this
    omega

/-- C5 witness: a store with two candidates matching the name part, only one
of which carries the phone suffix. -/
theorem C5_fuzzy_amended_witness :
    find_folder_by_fuzzy
      [⟨1, "Melnyk Petro (old), 0001112233".toList⟩,
       ⟨2, "Melnyk Petro, 380671234567".toList⟩]
      "Melnyk Petro, +380671234567".toList "671234567".toList =
      some ⟨2, "Melnyk Petro, 380671234567".toList⟩ ∧
    (hasSub (head0 (splitOnChar ',' "Melnyk Petro, +380671234567".toList))
        ("Melnyk Petro, 380671234567".toList) = true ∧
      ("671234567".toList ≠ [] →
        hasSub "671234567".toList
          (stripNonDigits "Melnyk Petro, 380671234567".toList) = true) ∧
      ∃ l₁ l₂, fuzzyCandidates
          [⟨1, "Melnyk Petro (old), 0001112233".toList⟩,
           ⟨2, "Melnyk Petro, 380671234567".toList⟩]
          "Melnyk Petro, +380671234567".toList "671234567".toList =
          l₁ ++ (⟨2, "Melnyk Petro, 380671234567".toList⟩ : Folder) :: l₂ ∧
        (∀ g ∈ l₁, g.name.length <
          ("Melnyk Petro, 380671234567".toList : Str).length) ∧
        (∀ g ∈ l₂, g.name.length ≤
          ("Melnyk Petro, 380671234567".toList : Str).length)) :=
  ⟨by decide,
   C5_fuzzy_amended _ _ _ ⟨2, "Melnyk Petro, 380671234567".toList⟩ (by decide)⟩

/-! ### Claim C10 — Tier-3 ranking key (corrected) -/

/-- Unfolding of `find_folder_by_phone` at a present expected name. -/
theorem find_phone_unfold_some (folders : List Folder) (phone exp : Str) :
    find_folder_by_phone folders phone (some exp) =
      (if (tier3_matched folders phone).isEmpty then none
       else if (tier3_matched folders phone).length == 1 || exp.isEmpty then
         (sortDescPy ltLen (tier3_matched folders phone)).head?
       else (sortDescPy (ltKey exp) (tier3_matched folders phone)).head?) := rfl

/-- C10 (counterexample): the code intersects the raw (case-preserved) token
sets, not lowercase ones.  With expected name `"melnyk petro"`, the candidate
`"MELNYK PETRO, …"` has lowercase-token intersection 2 but raw intersection 0,
so the code falls back to the length tie-break and returns the *other*
phone-confirmed candidate — the claimed lowercase-intersection maximizer is
not the folder returned. -/
theorem C10_counterexample :
    find_folder_by_phone
      [⟨1, "MELNYK PETRO, +380671234567".toList⟩,
       ⟨2, "aaaa bbbb cccc dddd, 380671234567".toList⟩]
      "0671234567".toList (some "melnyk petro".toList) =
      some ⟨2, "aaaa bbbb cccc dddd, 380671234567".toList⟩ ∧
    (⟨1, "MELNYK PETRO, +380671234567".toList⟩ : Folder) ∈
      tier3_matched
        [⟨1, "MELNYK PETRO, +380671234567".toList⟩,
         ⟨2, "aaaa bbbb cccc dddd, 380671234567".toList⟩]
        "0671234567".toList ∧
    lowercaseTokenInter "MELNYK PETRO, +380671234567".toList
      "melnyk petro".toList = 2 ∧
    lowercaseTokenInter "aaaa bbbb cccc dddd, 380671234567".toList
      "melnyk petro".toList = 0 :=
  ⟨by decide, by decide, by decide, by decide⟩

/-- C10 (amended): with an expected name supplied (non-empty) and more than
one phone-confirmed candidate, the returned folder maximizes the pair
`(raw token-set intersection with the expected name, raw name length)` in
lexicographic order over the matched set; tokens are compared with their
original case, not lowercased. -/
theorem C10_tier3_ranking_amended (folders : List Folder) (phone exp : Str)
    (f : Folder) (hexp : exp ≠ [])
    (hlen : (tier3_matched folders phone).length ≠ 1)
    (h : find_folder_by_phone folders phone (some exp) = some f) :
    f ∈ tier3_matched folders phone ∧
    ∀ g ∈ tier3_matched folders phone,
      interCount (fioTokens g.name) (fioTokens exp) <
          interCount (fioTokens f.name) (fioTokens exp) ∨
        (interCount (fioTokens g.name) (fioTokens exp) =
            interCount (fioTokens f.name) (fioTokens exp) ∧
          g.name.length ≤ f.name.length) := by
  rw [find_phone_unfold_some] at h
  by_cases he : (tier3_matched folders phone).isEmpty
  · rw [if_pos he] at h
    exact absurd h (by simp)
  · rw [if_neg he] at h
    have hcond : ((tier3_matched folders phone).length == 1 || exp.isEmpty) = false := by
      have h1 : ((tier3_matched folders phone).length == 1) = false := by
        simpa using hlen
      have h2 : exp.isEmpty = false := by
        cases exp with
        | nil => exact absurd rfl hexp
        | cons a as => rfl
      rw [h1, h2]
      rfl
    rw [hcond] at h
    simp only [Bool.false_eq_true, if_false] at h
    obtain ⟨hmem, hmax⟩ :=
      sortDescPy_head_spec (ltKey exp) (ltKey_trans exp) (ltKey_co exp)
        (ltKey_irr exp) h
    refine ⟨hmem, fun g hg => ?_⟩
    have := hmax g hg
    simp only [ltKey, pairLtB, tier3_key, decide_eq_false_iff_not, not_or,
      not_and, not_lt] at this
    rcases Nat.lt_or_ge (interCount (fioTokens g.name) (fioTokens exp))
      (interCount (fioTokens f.name) (fioTokens exp)) with hlt | hge
    · exact Or.inl hlt
    · have h1 := this.1
      have heq : interCount (fioTokens g.name) (fioTokens exp) =
          interCount (fioTokens f.name) (fioTokens exp) := by omega
      exact Or.inr ⟨heq, by
        have h2 := this.2 heq.symm
        omega⟩

/-- C10 witness: two phone-confirmed candidates, expected name supplied; the
returned folder attains the maximal (intersection, length) key. -/
theorem C10_tier3_ranking_amended_witness :
    find_folder_by_phone
      [⟨1, "Melnyk Petro, +380671234567".toList⟩,
       ⟨2, "Zzzz, 380671234567".toList⟩]
      "0671234567".toList (some "Melnyk Petro".toList) =
      some ⟨1, "Melnyk Petro, +380671234567".toList⟩ ∧
    ((⟨1, "Melnyk Petro, +380671234567".toList⟩ : Folder) ∈
      tier3_matched
        [⟨1, "Melnyk Petro, +380671234567".toList⟩,
         ⟨2, "Zzzz, 380671234567".toList⟩] "0671234567".toList ∧
    ∀ g ∈ tier3_matched
        [⟨1, "Melnyk Petro, +380671234567".toList⟩,
         ⟨2, "Zzzz, 380671234567".toList⟩] "0671234567".toList,
      interCount (fioTokens g.name) (fioTokens "Melnyk Petro".toList) <
          interCount (fioTokens ("Melnyk Petro, +380671234567".toList))
            (fioTokens "Melnyk Petro".toList) ∨
        (interCount (fioTokens g.name) (fioTokens "Melnyk Petro".toList) =
            interCount (fioTokens ("Melnyk Petro, +380671234567".toList))
              (fioTokens "Melnyk Petro".toList) ∧
          g.name.length ≤ ("Melnyk Petro, +380671234567".toList : Str).length)) :=
  ⟨by decide,
   C10_tier3_ranking_amended _ _ "Melnyk Petro".toList
     ⟨1, "Melnyk Petro, +380671234567".toList⟩ (by decide) (by decide)
     (by decide)⟩

/-! ### Stage-history lemmas -/

theorem segs_ne_nil (r : StageRow) (rest : List StageRow) (now : Int) :
    compute_stage_segments (r :: rest) now ≠ [] := by
  cases rest <;> simp [compute_stage_segments]

theorem segs_duration : ∀ (rows : List StageRow) (now : Int) {s : StageSegment},
    s ∈ compute_stage_segments rows now → s.duration = s.stop - s.start
  | [], _, s, h => absurd h (by simp [compute_stage_segments])
  | [r], _, s, h => by
    simp only [compute_stage_segments, List.mem_singleton] at h
    subst h
    rfl
  | r :: r₂ :: rest, now, s, h => by
    simp only [compute_stage_segments, List.mem_cons] at h
    rcases h with rfl | h
    · rfl
    · exact segs_duration (r₂ :: rest) now h

theorem segs_chain : ∀ (rows : List StageRow) (now : Int),
    List.Chain' (fun s₁ s₂ => s₁.stop = s₂.start) (compute_stage_segments rows now)
  | [], _ => List.chain'_nil
  | [r], now => List.chain'_singleton _
  | r :: r₂ :: rest, now => by
    show List.Chain' _ (⟨r.sid, r.time, r₂.time, r₂.time - r.time⟩ ::
      compute_stage_segments (r₂ :: rest) now)
    refine List.chain'_cons'.mpr ⟨?_, segs_chain (r₂ :: rest) now⟩
    intro s hs
    cases rest with
    | nil =>
      simp only [compute_stage_segments, List.head?_cons, Option.mem_def,
        Option.some.injEq] at hs
      rw [← hs]
    | cons r₃ rest₃ =>
      simp only [compute_stage_segments, List.head?_cons, Option.mem_def,
        Option.some.injEq] at hs
      rw [← hs]

theorem segs_last : ∀ (rows : List StageRow) (now : Int), rows ≠ [] →
    ∃ s, (compute_stage_segments rows now).getLast? = some s ∧ s.stop = now
  | [], _, h => absurd rfl h
  | [r], now, _ => ⟨⟨r.sid, r.time, now, now - r.time⟩, by simp [compute_stage_segments], rfl⟩
  | r :: r₂ :: rest, now, _ => by
    obtain ⟨s, hs, hstop⟩ := segs_last (r₂ :: rest) now (by simp)
    refine ⟨s, ?_, hstop⟩
    show (⟨r.sid, r.time, r₂.time, r₂.time - r.time⟩ ::
      compute_stage_segments (r₂ :: rest) now).getLast? = some s
    rw [show (⟨r.sid, r.time, r₂.time, r₂.time - r.time⟩ ::
        compute_stage_segments (r₂ :: rest) now) =
        [⟨r.sid, r.time, r₂.time, r₂.time - r.time⟩] ++
        compute_stage_segments (r₂ :: rest) now from rfl,
      List.getLast?_append_of_ne_nil _ (segs_ne_nil r₂ rest now)]
    exact hs

/-- The rendered duration depends only on the zero-clamped value: the clamp
`int(max(td.total_seconds(), 0))` happens inside `_fmt_tdelta`. -/
theorem fmt_clamp (td : Int) : _fmt_tdelta (max td 0) = _fmt_tdelta td := by
  unfold _fmt_tdelta fmtTotalSeconds
  rw [max_assoc, max_self]

/-! ### Claim C6 — segment durations under clock skew (corrected) -/

/-- C6 (counterexample): with a single event at time 100 and evaluation time
50 (clock skew), the stored duration of the open segment is the negative
`-50`; `compute_stage_segments` does not floor it. -/
theorem C6_counterexample :
    compute_stage_segments [⟨"A".toList, 100⟩] 50 =
      [⟨"A".toList, 100, 50, -50⟩] ∧ ((-50 : Int) < 0) :=
  ⟨by decide, by decide⟩

/-- C6 (amended): every segment stores `duration = end - start` exactly, with
no flooring — under clock skew the stored duration is negative — and the
zero-flooring happens in the renderer `_fmt_tdelta`, whose output depends only
on `max duration 0`. -/
theorem C6_duration_amended (rows : List StageRow) (now : Int)
    (s : StageSegment) (hs : s ∈ compute_stage_segments rows now) :
    s.duration = s.stop - s.start ∧
    _fmt_tdelta (max s.duration 0) = _fmt_tdelta s.duration :=
  ⟨segs_duration rows now hs, fmt_clamp s.duration⟩

/-- C6 witness at a concrete event list and evaluation time. -/
theorem C6_duration_amended_witness :
    (⟨"A".toList, 0, 2, 2⟩ : StageSegment) ∈
      compute_stage_segments [⟨"A".toList, 0⟩, ⟨"B".toList, 2⟩] 5 ∧
    ((⟨"A".toList, 0, 2, 2⟩ : StageSegment).duration =
        (⟨"A".toList, 0, 2, 2⟩ : StageSegment).stop -
          (⟨"A".toList, 0, 2, 2⟩ : StageSegment).start ∧
      _fmt_tdelta (max (⟨"A".toList, 0, 2, 2⟩ : StageSegment).duration 0) =
        _fmt_tdelta (⟨"A".toList, 0, 2, 2⟩ : StageSegment).duration) :=
  ⟨by decide,
   C6_duration_amended [⟨"A".toList, 0⟩, ⟨"B".toList, 2⟩] 5
     ⟨"A".toList, 0, 2, 2⟩ (by decide)⟩

/-! ### Claim C8 — dedup and segmentation of the worked example -/

/-- C8: for events `[(A,t0),(A,t1),(B,t2)]` with `t0 < t1 < t2` and `A ≠ B`,
the history reducer retains `[(A,t0),(B,t2)]` and the segmenter produces
exactly the two segments `A: [t0,t2)` and `B: [t2,now)`. -/
theorem C8_dedup_example (A B : Str) (t0 t1 t2 now : Int) (limit : Nat)
    (hAB : A ≠ B) (h01 : t0 < t1) (h12 : t1 < t2) (hlim : 3 ≤ limit) :
    get_deal_stage_history [⟨A, t0⟩, ⟨A, t1⟩, ⟨B, t2⟩] limit =
      [⟨A, t0⟩, ⟨B, t2⟩] ∧
    compute_stage_segments [⟨A, t0⟩, ⟨B, t2⟩] now =
      [⟨A, t0, t2, t2 - t0⟩, ⟨B, t2, now, now - t2⟩] := by
  constructor
  · unfold get_deal_stage_history
    rw [List.take_of_length_le (by simpa using hlim)]
    have e1 : ltTime ⟨B, t2⟩ ⟨A, t1⟩ = false := by
      simp only [ltTime, decide_eq_false_iff_not, not_lt]
      omega
    have e2 : ltTime ⟨A, t1⟩ ⟨A, t0⟩ = false := by
      simp only [ltTime, decide_eq_false_iff_not, not_lt]
      omega
    have hsort : sortAscPy ltTime [⟨A, t0⟩, ⟨A, t1⟩, ⟨B, t2⟩] =
        [⟨A, t0⟩, ⟨A, t1⟩, ⟨B, t2⟩] := by
      simp [sortAscPy, insAscPy, e1, e2]
    rw [hsort]
    have hBA : ¬B = A := fun h => hAB h.symm
    simp [dedupLoop, hBA]
  · rfl

/-- C8 witness at concrete stages and times. -/
theorem C8_dedup_example_witness :
    get_deal_stage_history
      [⟨"A".toList, 0⟩, ⟨"A".toList, 1⟩, ⟨"B".toList, 2⟩] 300 =
      [⟨"A".toList, 0⟩, ⟨"B".toList, 2⟩] ∧
    compute_stage_segments [⟨"A".toList, 0⟩, ⟨"B".toList, 2⟩] 5 =
      [⟨"A".toList, 0, 2, 2⟩, ⟨"B".toList, 2, 5, 3⟩] :=
  C8_dedup_example "A".toList "B".toList 0 1 2 5 300 (by decide) (by decide)
    (by decide) (by decide)

/-! ### Claim C9 — segment contiguity and the open final segment (corrected) -/

/-- C9 (counterexample): with one event at time 100 and evaluation time 30,
the final segment's end is the evaluation clock 30, which is *less* than the
event timestamp 100 — the claimed "end ≥ every event timestamp" fails under
clock skew. -/
theorem C9_counterexample :
    compute_stage_segments [⟨"A".toList, 100⟩] 30 =
      [⟨"A".toList, 100, 30, -70⟩] ∧ ((30 : Int) < 100) :=
  ⟨by decide, by decide⟩

/-- C9 (amended): for any non-empty event list, adjacent segments are
contiguous (`end` of one equals `start` of the next), the final segment's end
is exactly the evaluation clock `now`, and that end bounds every event
timestamp whenever the clock is not behind the events (no clock skew). -/
theorem C9_segments_amended (rows : List StageRow) (now : Int)
    (hne : rows ≠ []) :
    List.Chain' (fun s₁ s₂ => s₁.stop = s₂.start)
      (compute_stage_segments rows now) ∧
    (∃ s, (compute_stage_segments rows now).getLast? = some s ∧ s.stop = now) ∧
    ((∀ r ∈ rows, r.time ≤ now) →
      ∀ s, (compute_stage_segments rows now).getLast? = some s →
        ∀ r ∈ rows, r.time ≤ s.stop) := by
  refine ⟨segs_chain rows now, segs_last rows now hne, ?_⟩
  intro hclock s hs r hr
  obtain ⟨s', hs', hstop⟩ := segs_last rows now hne
  rw [hs'] at hs
  cases hs
  rw [hstop]
  exact hclock r hr

/-- C9 witness at a concrete event list. -/
theorem C9_segments_amended_witness :
    (([⟨"A".toList, 0⟩, ⟨"B".toList, 2⟩] : List StageRow) ≠ []) ∧
    (List.Chain' (fun s₁ s₂ => s₁.stop = s₂.start)
      (compute_stage_segments [⟨"A".toList, 0⟩, ⟨"B".toList, 2⟩] 5) ∧
    (∃ s, (compute_stage_segments
        [⟨"A".toList, 0⟩, ⟨"B".toList, 2⟩] 5).getLast? = some s ∧ s.stop = 5) ∧
    ((∀ r ∈ ([⟨"A".toList, 0⟩, ⟨"B".toList, 2⟩] : List StageRow), r.time ≤ 5) →
      ∀ s, (compute_stage_segments
          [⟨"A".toList, 0⟩, ⟨"B".toList, 2⟩] 5).getLast? = some s →
        ∀ r ∈ ([⟨"A".toList, 0⟩, ⟨"B".toList, 2⟩] : List StageRow),
          r.time ≤ s.stop)) :=
  ⟨by decide,
   C9_segments_amended [⟨"A".toList, 0⟩, ⟨"B".toList, 2⟩] 5 (by decide)⟩

end DocBot
